import Mathlib

/-!
Shallow embedding of the mini-blockchain (Merkle tree, proof-of-work mining,
proof-of-stake forging, chain validation) from `Exercice4.cpp` (with the
sibling variants in `Exercice1.cpp`–`Exercice3.cpp`), together with theorems
settling the specification claims.

Conventions of the embedding:
- C++ `uint64_t`/`uint32_t` counters become `Nat` (no claim exercises 64-bit
  wraparound; the only wrap that matters, `totalStake - 1` at `totalStake = 0`,
  is discussed at its theorem).
- `std::vector` becomes `List`; a `while` loop over a growing vector becomes
  structural recursion on the current level / remaining fuel.
- `time(nullptr)` and the Mersenne-twister draw are environment inputs; they
  are passed in explicitly (the spec declares randomness an injected
  capability).
- Transaction amounts are C++ `double`s in the source; every amount appearing
  in the program and the claims is a small integral value (`0.0`, `5.0`,
  `10.0`), which C++ stream output prints without a decimal point, exactly as
  `Nat` printing does, so amounts are embedded as `Nat`.
- Fallible or partial operations (unbounded mining loop, `back()` on a
  possibly-empty vector) return `Option`.
-/

/-- The external digest primitive (OpenSSL `SHA256` rendered in lowercase hex
by `sha256_hex`) is modelled as a deterministic executable function returning
a fixed-width lowercase-hex string: a byte fold into the digest state,
followed by a bijective multiplicative mixing step (odd constant, modulo the
state size) so that trailing-byte changes reach the leading digits. Only the
interface properties the program relies on are kept: determinism and a
fixed-width hex rendering of a fixed-size state. The 256-bit digest state is
modelled at 64 bits (16 hex characters instead of 64) so that concrete chains
stay evaluable inside the kernel; no claim inspects more than a bounded
digest prefix or the hex-ness of the digest, and both are width-independent. -/
def hashNat (s : String) : Nat :=
  (s.data.foldl (fun a c => (a * 131 + c.toNat + 7) % (2 ^ 64)) 5381 *
    0x9e3779b97f4a7c15) % (2 ^ 64)

/-- Hex digit characters, `0`–`9` then `a`–`f`. -/
def hexDigitChar (n : Nat) : Char :=
  if n < 10 then Char.ofNat (48 + n) else Char.ofNat (87 + n)

/-- Fixed-width big-endian hex rendering (`k` digits). -/
def toHexAux : Nat → Nat → List Char
  | 0, _ => []
  | k + 1, v => toHexAux k (v / 16) ++ [hexDigitChar (v % 16)]

/-- Fixed-width hex rendering of the digest state, like the C++ helper's
`setw(2)`/`setfill('0')` loop over the digest bytes. -/
def toHexFixed (v : Nat) : String :=
  String.mk (toHexAux 16 v)

/-- Model of `sha256_hex` (`Exercice4.cpp:16`): digest of a string, as a
fixed-width lowercase-hex string. -/
def sha256_hex (s : String) : String :=
  toHexFixed (hashNat s)

/-- Characters that can occur in a hex digest. -/
def isHexChar (c : Char) : Bool :=
  ("0123456789abcdef".data).contains c

/-- A string made only of hex digest characters. -/
def hexOnly (s : String) : Bool :=
  s.data.all isHexChar

/-- One bottom-up level step of `MerkleTree::buildTree`
(`Exercice4.cpp:60-67`): consecutive pairs are hashed left-then-right over the
concatenated hex strings; a lone trailing node (odd level) is pushed through
unchanged. -/
def buildLevel : List String → List String
  | [] => []
  | [x] => [x]
  | x :: y :: rest => sha256_hex (x ++ y) :: buildLevel rest

/-- The `while (tree.size() - offset > 1)` loop of `buildTree`
(`Exercice4.cpp:58-69`): the flat `tree` vector is `acc`, the slice past
`offset` is `level`. The loop terminates because each level at least halves;
the structural fuel makes that termination argument kernel-reducible, and
`level.length` fuel always suffices since a level of `n ≥ 2` nodes halves at
most `n - 1` times before reaching size 1. -/
def buildAux : Nat → List String → List String → List String
  | 0, acc, _ => acc
  | fuel + 1, acc, level =>
    if level.length ≤ 1 then acc
    else buildAux fuel (acc ++ buildLevel level) (buildLevel level)

/-- The flat `tree` vector after `MerkleTree::buildTree` (`Exercice4.cpp:51`):
level 0 is the digest of each leaf, then levels are appended bottom-up. -/
def MerkleTree.tree (leaves : List String) : List String :=
  buildAux leaves.length (leaves.map sha256_hex) (leaves.map sha256_hex)

/-- Embeds `MerkleTree::getRoot` (`Exercice4.cpp:77-79`): last entry of the flat
tree, or `""` when the tree is empty. -/
def MerkleTree.getRoot (leaves : List String) : String :=
  match (MerkleTree.tree leaves).getLast? with
  | none => ""
  | some r => r

/-- Embeds `Transaction` (`Exercice4.cpp:27-43`). Amounts are embedded as `Nat`
(see the header note on `double` amounts). -/
structure Transaction where
  id : String
  sender : String
  receiver : String
  amount : Nat
deriving DecidableEq, Repr

/-- Embeds `Transaction::toString` (`Exercice4.cpp:38-42`): field concatenation in
declaration order. -/
def Transaction.toString (t : Transaction) : String :=
  t.id ++ t.sender ++ t.receiver ++ Nat.repr t.amount

/-- Embeds `Block` (`Exercice4.cpp:83-92`). -/
structure Block where
  index : Nat
  previousHash : String
  merkleRoot : String
  transactions : List Transaction
  timestamp : Nat
  nonce : Nat
  hash : String
deriving DecidableEq, Repr

/-- The `Block` constructor (`Exercice4.cpp:93-102`): Merkle root computed
from the serialized transactions; nonce 0; `hash` default-constructed to the
empty string; the timestamp (`time(nullptr)`) is an environment input passed
explicitly. -/
def Block.make (idx : Nat) (prev : String) (txs : List Transaction)
    (ts : Nat) : Block :=
  { index := idx
    previousHash := prev
    merkleRoot := MerkleTree.getRoot (txs.map Transaction.toString)
    transactions := txs
    timestamp := ts
    nonce := 0
    hash := "" }

/-- Embeds `Block::computeHash` (`Exercice4.cpp:105-112`): digest of the streamed
fields, with the validator tag appended to the preimage only when the
validator string is nonempty. -/
def Block.computeHash (b : Block) (testNonce : Nat) (validator : String) :
    String :=
  sha256_hex (Nat.repr b.index ++ b.previousHash ++ b.merkleRoot ++
    Nat.repr b.timestamp ++ Nat.repr testNonce ++
    (if validator.isEmpty then "" else " (Validated by: " ++ validator ++ ")"))

/-- The difficulty test of `Block::mineBlock` (`Exercice4.cpp:116-119`):
`hash.substr(0, difficulty) == string(difficulty, '0')`. -/
def meetsDifficulty (difficulty : Nat) (h : String) : Bool :=
  h.data.take difficulty == List.replicate difficulty '0'

/-- The `while (true)` body of `Block::mineBlock` (`Exercice4.cpp:117-123`),
with fuel bounding the unbounded search: try nonce `n`, stop on the first
qualifying digest, else increment. -/
def mineBlockAux (difficulty : Nat) (b : Block) : Nat → Nat → Option Block
  | 0, _ => none
  | fuel + 1, n =>
    let h := b.computeHash n ""
    if meetsDifficulty difficulty h then
      some { b with nonce := n, hash := h }
    else
      mineBlockAux difficulty b fuel (n + 1)

/-- Embeds `Block::mineBlock` (`Exercice4.cpp:115-124`): search starts from the
block's current nonce (0 after construction). -/
def Block.mineBlock (b : Block) (difficulty fuel : Nat) : Option Block :=
  mineBlockAux difficulty b fuel b.nonce

/-- Embeds `Block::forgeBlock` (`Exercice4.cpp:127-130`): nonce pinned to 0, digest
computed with the validator in the preimage. -/
def Block.forgeBlock (b : Block) (validator : String) : Block :=
  { b with nonce := 0, hash := b.computeHash 0 validator }

/-- Tests whether `pat` occurs as a prefix of `s` (one candidate position of
`std::string::find`). -/
def substrAt : List Char → List Char → Bool
  | [], _ => true
  | _ :: _, [] => false
  | p :: ps, c :: cs => p == c && substrAt ps cs

/-- Embeds `std::string::find` (first occurrence position, `none` for `npos`),
walking candidate positions left to right. -/
def findSubAux (pat : List Char) : List Char → Nat → Option Nat
  | s, i =>
    if substrAt pat s then some i
    else
      match s with
      | [] => none
      | _ :: rest => findSubAux pat rest (i + 1)

/-- First occurrence of `pat` in `s`, or `none` (`std::string::find`). -/
def findSub (pat s : List Char) : Option Nat :=
  findSubAux pat s 0

/-- The marker searched for in the stored digest by `Blockchain::isValid`
(`Exercice4.cpp:163`). -/
def validatedMarker : String := "(Validated by:"

/-- The per-block digest recomputation of `Blockchain::isValid`
(`Exercice4.cpp:161-171`): recompute without validator; if the stored digest
contains the marker, extract `hash.substr(pos + 13)` truncated at the first
`')'` and recompute with it (`computeHash` ignores it again if it is empty). -/
def recomputeHash (b : Block) : String :=
  match findSub validatedMarker.data b.hash.data with
  | none => b.computeHash b.nonce ""
  | some pos =>
    let tail := b.hash.data.drop (pos + 13)
    let v :=
      match findSub [')'] tail with
      | some k => tail.take k
      | none => tail
    b.computeHash b.nonce (String.mk v)

/-- The loop of `Blockchain::isValid` from index 1 on (`Exercice4.cpp:152-175`)
with `prevHash` the predecessor's stored digest: linkage check, then digest
recomputation check; early `return false` becomes `&&`. -/
def isValidFrom (prevHash : String) : List Block → Bool
  | [] => true
  | b :: rest =>
    (b.previousHash == prevHash) && (b.hash == recomputeHash b) &&
      isValidFrom b.hash rest

/-- Embeds `Blockchain::isValid` (`Exercice4.cpp:151-177`): block 0 is never checked
itself; only its stored digest feeds block 1's linkage check. -/
def Blockchain.isValid : List Block → Bool
  | [] => true
  | g :: rest => isValidFrom g.hash rest

/-- The genesis transaction (`Exercice4.cpp:141`). -/
def genesisTx : Transaction :=
  { id := "0", sender := "Genesis", receiver := "Genesis", amount := 0 }

/-- The unsealed genesis block built by the base `Blockchain` constructor
(`Exercice4.cpp:139-144`). -/
def genesisBlock (ts : Nat) : Block :=
  Block.make 0 "0" [genesisTx] ts

/-- Embeds the `PoWBlockchain` constructor (`Exercice4.cpp:197-199`): genesis is mined at
the chain's difficulty. -/
def PoWBlockchain.create (difficulty fuel ts : Nat) : Option (List Block) :=
  ((genesisBlock ts).mineBlock difficulty fuel).map (fun g => [g])

/-- Embeds `PoWBlockchain::addBlock` (`Exercice4.cpp:201-205`): new block at index
`chain.size()` linked to the tip's stored digest, mined, then appended. -/
def PoWBlockchain.addBlock (difficulty fuel : Nat) (chain : List Block)
    (txs : List Transaction) (ts : Nat) : Option (List Block) :=
  match chain.getLast? with
  | none => none
  | some last =>
    ((Block.make chain.length last.hash txs ts).mineBlock difficulty
      fuel).map (fun b => chain ++ [b])

/-- A PoW chain reached from the constructor by a sequence of
`addBlock(txs)` calls; each batch carries its environment timestamp. -/
def PoWBlockchain.build (difficulty fuel ts : Nat)
    (batches : List (List Transaction × Nat)) : Option (List Block) :=
  (PoWBlockchain.create difficulty fuel ts).bind (fun c0 =>
    batches.foldlM
      (fun c p => PoWBlockchain.addBlock difficulty fuel c p.1 p.2) c0)

/-- The accumulation loop of `PoSBlockchain::selectValidator`
(`Exercice4.cpp:224-230`): `current` is the running cumulative stake, `r` the
drawn value; `none` means the loop fell through to the fallback. -/
def selectLoop (r : Nat) : Nat → List (String × Nat) → Option String
  | _, [] => none
  | current, v :: rest =>
    if r < current + v.2 then some v.1 else selectLoop r (current + v.2) rest

/-- The `totalStake` accumulation of `PoSBlockchain::selectValidator`
(`Exercice4.cpp:214-217`), as structural recursion. -/
def totalStake : List (String × Nat) → Nat
  | [] => 0
  | v :: rest => v.2 + totalStake rest

/-- Embeds `PoSBlockchain::selectValidator` (`Exercice4.cpp:213-232`) with the
random draw `r` injected (the spec treats randomness as an injected
capability). The fallback `return validators.back().first` is `getLast?`;
`back()` on an empty vector is undefined behaviour in C++, modelled as
`none`. -/
def PoSBlockchain.selectValidator (validators : List (String × Nat))
    (r : Nat) : Option String :=
  match selectLoop r 0 validators with
  | some v => some v
  | none => validators.getLast?.map (fun v => v.1)

/-- Embeds the `PoSBlockchain` constructor (`Exercice4.cpp:235-238`): genesis is forged
by a selected validator. -/
def PoSBlockchain.create (validators : List (String × Nat)) (r ts : Nat) :
    Option (List Block) :=
  (PoSBlockchain.selectValidator validators r).map
    (fun v => [(genesisBlock ts).forgeBlock v])

/-- Embeds `PoSBlockchain::addBlock` (`Exercice4.cpp:240-245`): new block at index
`chain.size()` linked to the tip's stored digest, forged by a selected
validator, then appended. -/
def PoSBlockchain.addBlock (validators : List (String × Nat))
    (chain : List Block) (txs : List Transaction) (ts r : Nat) :
    Option (List Block) :=
  match chain.getLast? with
  | none => none
  | some last =>
    (PoSBlockchain.selectValidator validators r).map
      (fun v => chain ++ [(Block.make chain.length last.hash txs ts).forgeBlock v])

/-- A PoS chain reached from the constructor by a sequence of
`addBlock(txs)` calls; each batch carries its environment timestamp and
injected draw. -/
def PoSBlockchain.build (validators : List (String × Nat)) (r0 ts : Nat)
    (batches : List (List Transaction × Nat × Nat)) : Option (List Block) :=
  (PoSBlockchain.create validators r0 ts).bind (fun c0 =>
    batches.foldlM
      (fun c p => PoSBlockchain.addBlock validators c p.1 p.2.1 p.2.2) c0)

/-- Modelled from the spec: the test-harness mutation of one transaction's
amount ("mutating any transaction's amount after append (in a test harness
that allows it)") — replace transaction `j`'s amount by `a`, leaving every
other field unchanged. -/
def tamperTxAmount : Nat → Nat → List Transaction → List Transaction
  | _, _, [] => []
  | 0, a, t :: ts => { t with amount := a } :: ts
  | j + 1, a, t :: ts => t :: tamperTxAmount j a ts

/-- Modelled from the spec: the test-harness mutation of block `i`'s
transaction `j`'s amount inside an already-built chain; every other stored
field of every block (merkleRoot, hash, linkage, ...) is left as it was. -/
def tamperAmount : Nat → Nat → Nat → List Block → List Block
  | _, _, _, [] => []
  | 0, j, a, b :: rest =>
    { b with transactions := tamperTxAmount j a b.transactions } :: rest
  | i + 1, j, a, b :: rest => b :: tamperAmount i j a rest

/-- Digest of the last block of `c`, or `p` when `c` is empty (the digest the
next appended block must link to, `p` being the predecessor of `c`'s head). -/
def lastHash (p : String) (c : List Block) : String :=
  match c.getLast? with
  | none => p
  | some b => b.hash

/-- Invariant of honestly built PoW chains: nonempty, every stored digest is
the block's own no-validator recomputation, every stored digest is hex, and
the chain validates. -/
def PoWInv (c : List Block) : Prop :=
  c ≠ [] ∧ Blockchain.isValid c = true ∧
    ∀ b ∈ c, b.hash = b.computeHash b.nonce "" ∧ hexOnly b.hash = true

/-- A concrete transaction (one of the demo transactions of `main`,
`Exercice4.cpp:266`) used by the concrete evaluations below. -/
def txA : Transaction :=
  { id := "11", sender := "ILIAS", receiver := "mostapha ", amount := 10 }

/-- The block mined by the concrete difficulty-2 mining run below (the
transaction batch is empty, so its Merkle root is the empty-string
sentinel). -/
def minedC4 : Block :=
  ((Block.make 0 "0" [] 0).mineBlock 2 40).getD (Block.make 0 "0" [] 0)

/-- The PoS chain of the concrete validation run below: one validator
`Validator1` of stake 100, injected draws 0, genesis at timestamp 0, one
appended single-transaction batch at timestamp 1. -/
def posChainC1 : List Block :=
  (PoSBlockchain.build [("Validator1", 100)] 0 0 [([txA], 1, 0)]).getD []

/-- The tip of `posChainC1` (its freshly appended PoS block). -/
def posTipC1 : Block :=
  posChainC1.getLast?.getD (genesisBlock 0)

set_option maxRecDepth 4000

lemma hexDigitChar_isHex (n : Nat) (h : n < 16) :
    isHexChar (hexDigitChar n) = true := by
  interval_cases n <;> decide

lemma toHexAux_hex (k v : Nat) : (toHexAux k v).all isHexChar = true := by
  induction k generalizing v with
  | zero => rfl
  | succ k ih =>
    simp only [toHexAux, List.all_append, List.all_cons, List.all_nil,
      Bool.and_eq_true, ih]
    exact ⟨trivial, hexDigitChar_isHex _ (Nat.mod_lt _ (by norm_num)), trivial⟩

lemma sha256_hex_hexOnly (s : String) : hexOnly (sha256_hex s) = true := by
  simpa [hexOnly, sha256_hex, toHexFixed] using toHexAux_hex 16 (hashNat s)

lemma computeHash_hexOnly (b : Block) (n : Nat) (v : String) :
    hexOnly (b.computeHash n v) = true :=
  sha256_hex_hexOnly _

lemma substrAt_paren_false (ps s : List Char) (hs : s.all isHexChar = true) :
    substrAt ('(' :: ps) s = false := by
  cases s with
  | nil => rfl
  | cons c cs =>
    simp only [List.all_cons, Bool.and_eq_true] at hs
    have hc : (('(' : Char) == c) = false := by
      cases hb : ('(' : Char) == c with
      | false => rfl
      | true =>
        exact absurd (eq_of_beq hb ▸ hs.1) (by decide)
    simp [substrAt, hc]

lemma findSubAux_paren_none (ps : List Char) (s : List Char)
    (hs : s.all isHexChar = true) :
    ∀ i, findSubAux ('(' :: ps) s i = none := by
  induction s with
  | nil => intro i; rfl
  | cons c cs ih =>
    intro i
    simp only [List.all_cons, Bool.and_eq_true] at hs
    rw [findSubAux, substrAt_paren_false _ _ (by simp [hs.1, hs.2])]
    exact ih hs.2 (i + 1)

/-- On a hex-only stored digest, `isValid`'s search for `"(Validated by:"`
never succeeds (the marker starts with `'('`, which is not a hex digit). -/
lemma findSub_marker_none (s : String) (hs : hexOnly s = true) :
    findSub validatedMarker.data s.data = none := by
  have hm : validatedMarker.data = '(' :: "Validated by:".data := rfl
  rw [findSub, hm]
  exact findSubAux_paren_none _ _ hs 0

/-- For a block whose stored digest is hex-only (every digest the program
itself stores), the validation recomputation is the no-validator digest: the
validator-extraction branch is dead. -/
lemma recomputeHash_of_hexOnly (b : Block) (hb : hexOnly b.hash = true) :
    recomputeHash b = b.computeHash b.nonce "" := by
  rw [recomputeHash, findSub_marker_none _ hb]

lemma computeHash_update (b : Block) (n : Nat) (h : String) (t : Nat)
    (v : String) :
    Block.computeHash { b with nonce := n, hash := h } t v =
      b.computeHash t v := rfl

/-- What a successful mining run guarantees: all non-seal fields are kept,
the stored digest is the block's own recomputation at the stored nonce, it
meets the difficulty, and every nonce from the starting one up to the stored
one failed the difficulty test. -/
lemma mineBlockAux_spec (d : Nat) (b : Block) :
    ∀ fuel n b', mineBlockAux d b fuel n = some b' →
      b'.index = b.index ∧ b'.previousHash = b.previousHash ∧
      b'.merkleRoot = b.merkleRoot ∧ b'.transactions = b.transactions ∧
      b'.timestamp = b.timestamp ∧
      b'.hash = b.computeHash b'.nonce "" ∧
      meetsDifficulty d b'.hash = true ∧
      n ≤ b'.nonce ∧
      ∀ m, n ≤ m → m < b'.nonce →
        meetsDifficulty d (b.computeHash m "") = false := by
  intro fuel
  induction fuel with
  | zero => intro n b' h; exact absurd h (by simp [mineBlockAux])
  | succ fuel ih =>
    intro n b' h
    rw [mineBlockAux] at h
    by_cases hd : meetsDifficulty d (b.computeHash n "") = true
    · simp only [hd, if_pos] at h
      obtain rfl := Option.some.injEq _ _ ▸ h
      refine ⟨rfl, rfl, rfl, rfl, rfl, rfl, ?_, le_refl _, ?_⟩
      · exact hd
      · intro m h1 h2
        exact absurd (lt_of_le_of_lt h1 h2) (lt_irrefl _)
    · simp only [hd, if_neg, Bool.not_eq_true] at h
      obtain ⟨f1, f2, f3, f4, f5, f6, f7, f8, f9⟩ := ih (n + 1) b' h
      refine ⟨f1, f2, f3, f4, f5, f6, f7, by omega, ?_⟩
      intro m h1 h2
      rcases Nat.eq_or_lt_of_le h1 with h1 | h1
      · subst h1
        simpa using hd
      · exact f9 m h1 h2

lemma lastHash_cons (p : String) (x : Block) (xs : List Block) :
    lastHash p (x :: xs) = lastHash x.hash xs := by
  cases xs with
  | nil => rfl
  | cons y ys => simp [lastHash, List.getLast?]

lemma lastHash_getLast (p : String) (c : List Block) (l : Block)
    (h : c.getLast? = some l) : lastHash p c = l.hash := by
  rw [lastHash, h]

/-- Appending one block to the scanned suffix: the new block must link to the
suffix's last digest (or to `p` if the suffix is empty) and pass the digest
recomputation check. -/
lemma isValidFrom_append (p : String) (xs : List Block) (b : Block) :
    isValidFrom p (xs ++ [b]) =
      (isValidFrom p xs &&
        ((b.previousHash == lastHash p xs) && (b.hash == recomputeHash b))) := by
  induction xs generalizing p with
  | nil => simp [isValidFrom, lastHash]
  | cons x xs ih =>
    simp [isValidFrom, ih x.hash, lastHash_cons, Bool.and_assoc]

lemma isValidFrom_head (p : String) (c : List Block)
    (h : isValidFrom p c = true) (hne : 0 < c.length) :
    (c.get ⟨0, hne⟩).previousHash = p := by
  cases c with
  | nil => simp at hne
  | cons x xs =>
    simp only [isValidFrom, Bool.and_eq_true, beq_iff_eq] at h
    exact h.1.1

lemma isValidFrom_pair (c : List Block) :
    ∀ (p : String), isValidFrom p c = true →
      ∀ i (hi : i + 1 < c.length),
        (c.get ⟨i + 1, hi⟩).previousHash = (c.get ⟨i, by omega⟩).hash := by
  induction c with
  | nil => intro p _ i hi; simp at hi
  | cons x xs ih =>
    intro p h i hi
    simp only [isValidFrom, Bool.and_eq_true, beq_iff_eq] at h
    cases i with
    | zero =>
      simp only [List.length_cons] at hi
      simpa using isValidFrom_head x.hash xs (by simpa using h.2) (by omega)
    | succ j =>
      simpa using ih x.hash (by simpa using h.2) j (by simpa using hi)

lemma isValidFrom_recompute (c : List Block) :
    ∀ (p : String), isValidFrom p c = true →
      ∀ b ∈ c, b.hash = recomputeHash b := by
  induction c with
  | nil => intro p _ b hb; simp at hb
  | cons x xs ih =>
    intro p h b hb
    simp only [isValidFrom, Bool.and_eq_true, beq_iff_eq] at h
    rcases List.mem_cons.mp hb with rfl | hb
    · exact h.1.2
    · exact ih x.hash (by simpa using h.2) b hb

/-- Chain-level linkage: a chain that validates links every block (from index
1 on) to its predecessor's stored digest. -/
lemma isValid_link (c : List Block) (h : Blockchain.isValid c = true) :
    ∀ i (hi : i + 1 < c.length),
      (c.get ⟨i + 1, hi⟩).previousHash = (c.get ⟨i, by omega⟩).hash := by
  cases c with
  | nil => intro i hi; simp at hi
  | cons g rest =>
    intro i hi
    rw [Blockchain.isValid] at h
    cases i with
    | zero =>
      simpa using isValidFrom_head g.hash rest h (by simpa using hi)
    | succ j =>
      simpa using isValidFrom_pair rest g.hash h j (by simpa using hi)

/-- A freshly mined block is sealed: stored digest = own no-validator
recomputation, and the digest is hex-only. -/
lemma mineBlock_sealed (b b' : Block) (d fuel : Nat)
    (h : b.mineBlock d fuel = some b') :
    b'.hash = b'.computeHash b'.nonce "" ∧ hexOnly b'.hash = true := by
  obtain ⟨f1, f2, f3, f4, f5, f6, f7, f8, f9⟩ :=
    mineBlockAux_spec d b fuel b.nonce b' h
  constructor
  · rw [f6]
    cases b' with
    | mk i p m t ts n hs =>
      cases b with
      | mk i2 p2 m2 t2 ts2 n2 hs2 =>
        simp only at f1 f2 f3 f4 f5
        subst f1; subst f2; subst f3; subst f4; subst f5
        rfl
  · rw [f6]; exact computeHash_hexOnly _ _ _

lemma powInv_create (difficulty fuel ts : Nat) (c : List Block)
    (h : PoWBlockchain.create difficulty fuel ts = some c) : PoWInv c := by
  rw [PoWBlockchain.create] at h
  cases hm : (genesisBlock ts).mineBlock difficulty fuel with
  | none => simp [hm] at h
  | some g =>
    rw [hm] at h
    simp only [Option.map_some', Option.some.injEq] at h
    subst h
    obtain ⟨hs, hx⟩ := mineBlock_sealed _ _ _ _ hm
    refine ⟨by simp, rfl, ?_⟩
    intro b hb
    rcases List.mem_singleton.mp hb with rfl
    exact ⟨hs, hx⟩

lemma powInv_addBlock (difficulty fuel : Nat) (c c' : List Block)
    (txs : List Transaction) (ts : Nat) (hc : PoWInv c)
    (h : PoWBlockchain.addBlock difficulty fuel c txs ts = some c') :
    PoWInv c' := by
  obtain ⟨hne, hv, hall⟩ := hc
  rw [PoWBlockchain.addBlock] at h
  cases hl : c.getLast? with
  | none => simp [hl] at h
  | some last =>
    simp only [hl] at h
    cases hm : (Block.make c.length last.hash txs ts).mineBlock difficulty fuel with
    | none => simp [hm] at h
    | some b =>
      rw [hm] at h
      simp only [Option.map_some', Option.some.injEq] at h
      subst h
      obtain ⟨hs, hx⟩ := mineBlock_sealed _ _ _ _ hm
      obtain ⟨p1, p2, p3, p4, p5, p6, p7, p8, p9⟩ :=
        mineBlockAux_spec difficulty _ fuel _ b hm
      have hlink : b.previousHash = last.hash := p2
      refine ⟨by simp, ?_, ?_⟩
      · cases c with
        | nil => exact absurd rfl hne
        | cons g rest =>
          simp only [Blockchain.isValid] at hv
          rw [List.cons_append]
          show isValidFrom g.hash (rest ++ [b]) = true
          rw [isValidFrom_append]
          have hrec : recomputeHash b = b.computeHash b.nonce "" :=
            recomputeHash_of_hexOnly b hx
          have hlast : lastHash g.hash rest = last.hash := by
            rw [← lastHash_cons g.hash g rest]
            exact lastHash_getLast g.hash (g :: rest) last hl
          simp only [hv, Bool.true_and, Bool.and_eq_true, beq_iff_eq]
          exact ⟨by rw [hlink, hlast], by rw [hrec]; exact hs⟩
      · intro x hx2
        rcases List.mem_append.mp hx2 with hx2 | hx2
        · exact hall x hx2
        · rcases List.mem_singleton.mp hx2 with rfl
          exact ⟨hs, hx⟩

lemma foldlM_powInv (difficulty fuel : Nat)
    (batches : List (List Transaction × Nat)) :
    ∀ (c c' : List Block), PoWInv c →
      batches.foldlM
        (fun c p => PoWBlockchain.addBlock difficulty fuel c p.1 p.2) c =
        some c' →
      PoWInv c' := by
  induction batches with
  | nil =>
    intro c c' hc h
    simp only [List.foldlM_nil, pure, Option.some.injEq] at h
    subst h
    exact hc
  | cons batch rest ih =>
    intro c c' hc h
    simp only [List.foldlM_cons] at h
    cases ha : PoWBlockchain.addBlock difficulty fuel c batch.1 batch.2 with
    | none => simp [ha] at h
    | some c1 =>
      rw [ha] at h
      exact ih c1 c' (powInv_addBlock _ _ _ _ _ _ hc ha) h

lemma pow_build_inv (difficulty fuel ts : Nat)
    (batches : List (List Transaction × Nat)) (c : List Block)
    (h : PoWBlockchain.build difficulty fuel ts batches = some c) :
    PoWInv c := by
  rw [PoWBlockchain.build] at h
  cases h0 : PoWBlockchain.create difficulty fuel ts with
  | none => simp [h0] at h
  | some c0 =>
    rw [h0] at h
    exact foldlM_powInv difficulty fuel batches c0 c
      (powInv_create difficulty fuel ts c0 h0) h

/-- Mutating transaction amounts changes no field that the per-block
validation checks read (`previousHash`, `hash`, and the recomputation inputs
`index`, `merkleRoot`, `timestamp`, `nonce` are all untouched). -/
lemma isValidFrom_tamperAmount :
    ∀ (i j a : Nat) (p : String) (c : List Block),
      isValidFrom p (tamperAmount i j a c) = isValidFrom p c := by
  intro i j a p c
  induction c generalizing i p with
  | nil => cases i <;> rfl
  | cons b rest ih =>
    cases i with
    | zero => rfl
    | succ i2 =>
      show isValidFrom p (b :: tamperAmount i2 j a rest) =
        isValidFrom p (b :: rest)
      simp only [isValidFrom]
      rw [ih i2 b.hash]

/-- Shows `Blockchain::isValid` never reads the transaction list: tampering any
amount anywhere leaves its verdict unchanged. -/
lemma isValid_tamperAmount (i j a : Nat) (c : List Block) :
    Blockchain.isValid (tamperAmount i j a c) = Blockchain.isValid c := by
  cases c with
  | nil => cases i <;> rfl
  | cons g rest =>
    cases i with
    | zero => rfl
    | succ i2 =>
      show isValidFrom g.hash (tamperAmount i2 j a rest) = _
      exact isValidFrom_tamperAmount i2 j a g.hash rest

/-- The accumulation loop returns the validator owning the half-open
cumulative-stake interval containing the draw. -/
lemma selectLoop_found (r : Nat) (name : String) (stake : Nat)
    (post : List (String × Nat)) :
    ∀ (pre : List (String × Nat)) (current : Nat),
      current + totalStake pre ≤ r → r < current + totalStake pre + stake →
      selectLoop r current (pre ++ (name, stake) :: post) = some name := by
  intro pre
  induction pre with
  | nil =>
    intro current h1 h2
    rw [totalStake] at h1 h2
    rw [List.nil_append, selectLoop, if_pos (by omega)]
  | cons v pre ih =>
    intro current h1 h2
    rw [totalStake] at h1 h2
    rw [List.cons_append, selectLoop, if_neg (by omega)]
    exact ih (current + v.2) (by omega) (by omega)

/-- The accumulation loop cannot exhaust the list while the draw is below
the remaining total stake on top of the accumulator. -/
lemma selectLoop_isSome (r : Nat) :
    ∀ (vals : List (String × Nat)) (current : Nat),
      current ≤ r → r < current + totalStake vals →
      (selectLoop r current vals).isSome = true := by
  intro vals
  induction vals with
  | nil =>
    intro current h1 h2
    rw [totalStake] at h2
    omega
  | cons v rest ih =>
    intro current h1 h2
    rw [totalStake] at h2
    rw [selectLoop]
    by_cases hv : r < current + v.2
    · rw [if_pos hv]; rfl
    · rw [if_neg hv]
      exact ih (current + v.2) (by omega) (by omega)

lemma buildLevel_append_even :
    ∀ (l : List String) (x : String), l.length % 2 = 0 →
      buildLevel (l ++ [x]) = buildLevel l ++ [x]
  | [], x, _ => rfl
  | [y], x, h => by simp at h
  | y :: z :: rest, x, h => by
    have h2 : rest.length % 2 = 0 := by
      simp only [List.length_cons] at h
      omega
    show sha256_hex (y ++ z) :: buildLevel (rest ++ [x]) =
      sha256_hex (y ++ z) :: (buildLevel rest ++ [x])
    rw [buildLevel_append_even rest x h2]

/-- C5: a Merkle level with an odd node count promotes its last node
unchanged (appending one node to an even level appends it untouched to the
next level, so no node is hashed with itself and no leaf is hashed twice);
for leaves `[A, B, C]`, level 1 is `[H(H(A)+H(B)), H(C)]` and the root is
`H(level1[0] + level1[1])`, `+` being hex-string concatenation. -/
theorem merkle_odd_level_promotes_last :
    (∀ (l : List String) (x : String), l.length % 2 = 0 →
        buildLevel (l ++ [x]) = buildLevel l ++ [x]) ∧
    (∀ A B C : String,
        buildLevel ([A, B, C].map sha256_hex) =
          [sha256_hex (sha256_hex A ++ sha256_hex B), sha256_hex C] ∧
        MerkleTree.getRoot [A, B, C] =
          sha256_hex (sha256_hex (sha256_hex A ++ sha256_hex B) ++
            sha256_hex C)) :=
  ⟨buildLevel_append_even, fun A B C => ⟨rfl, rfl⟩⟩

/-- Witness for C5: the odd-level promotion applied at a concrete level. -/
theorem merkle_odd_level_promotes_last_witness :
    buildLevel (["aa", "bb"] ++ ["cc"]) = buildLevel ["aa", "bb"] ++ ["cc"] :=
  merkle_odd_level_promotes_last.1 ["aa", "bb"] "cc" (by decide)

/-- C8: Merkle root construction is total on its edge cases: the empty leaf
sequence yields the empty-string sentinel, and a single-item sequence yields
that item's level-0 digest. -/
theorem merkle_root_edge_cases :
    MerkleTree.getRoot [] = "" ∧
    ∀ item : String, MerkleTree.getRoot [item] = sha256_hex item :=
  ⟨rfl, fun item => rfl⟩

/-- C7: with an injected draw `r`, stake-weighted selection returns the first
validator in list order whose cumulative stake strictly exceeds `r` (the
decomposition `pre ++ (name, stake) :: post` with
`totalStake pre ≤ r < totalStake pre + stake` pins that validator down); in
particular with stakes 100/200/150 and draw 250 it returns `V2`. -/
theorem selectValidator_first_exceeding :
    (∀ (pre post : List (String × Nat)) (name : String) (stake r : Nat),
        totalStake pre ≤ r → r < totalStake pre + stake →
        PoSBlockchain.selectValidator (pre ++ (name, stake) :: post) r =
          some name) ∧
    PoSBlockchain.selectValidator [("V1", 100), ("V2", 200), ("V3", 150)]
      250 = some "V2" := by
  constructor
  · intro pre post name stake r h1 h2
    rw [PoSBlockchain.selectValidator,
      selectLoop_found r name stake post pre 0 (by omega) (by omega)]
  · rfl

/-- Witness for C7: the general first-exceeding form instantiated at the
concrete validator set and draw 250. -/
theorem selectValidator_first_exceeding_witness :
    PoSBlockchain.selectValidator
      ([("V1", 100)] ++ ("V2", 200) :: [("V3", 150)]) 250 = some "V2" :=
  selectValidator_first_exceeding.1 [("V1", 100)] [("V3", 150)] "V2" 200 250
    (by decide) (by decide)

/-- C9: with a nonempty validator list and a draw strictly below the total
stake, the accumulation loop itself returns a validator before exhausting
the list, so the trailing `validators.back()` fallback is unreachable. -/
theorem selectLoop_no_fallback (validators : List (String × Nat)) (r : Nat)
    (hne : validators ≠ []) (hr : r < totalStake validators) :
    ∃ v, selectLoop r 0 validators = some v ∧
      PoSBlockchain.selectValidator validators r = some v := by
  have h := selectLoop_isSome r validators 0 (Nat.zero_le r) (by omega)
  cases hs : selectLoop r 0 validators with
  | none => rw [hs] at h; simp at h
  | some v =>
    refine ⟨v, rfl, ?_⟩
    rw [PoSBlockchain.selectValidator, hs]

/-- Witness for C9: the loop finds a validator at the concrete set and
draw 250. -/
theorem selectLoop_no_fallback_witness :
    ∃ v, selectLoop 250 0 [("V1", 100), ("V2", 200), ("V3", 150)] = some v ∧
      PoSBlockchain.selectValidator [("V1", 100), ("V2", 200), ("V3", 150)]
        250 = some v :=
  selectLoop_no_fallback [("V1", 100), ("V2", 200), ("V3", 150)] 250
    (by decide) (by decide)

/-- C10: `isValid` never recomputes or checks block 0's own digest — two
chains that differ only in the genesis block's non-hash fields but share its
stored hash validate identically, so such genesis tampering is undetectable
through `isValid`. -/
theorem isValid_ignores_genesis_fields (g g' : Block) (rest : List Block)
    (h : g.hash = g'.hash) :
    Blockchain.isValid (g :: rest) = Blockchain.isValid (g' :: rest) := by
  show isValidFrom g.hash rest = isValidFrom g'.hash rest
  rw [h]

/-- Witness for C10: two genesis blocks differing in Merkle root,
transactions, timestamp and nonce but sharing the stored hash. -/
theorem isValid_ignores_genesis_fields_witness :
    Blockchain.isValid
        [{ index := 0, previousHash := "0", merkleRoot := "aa",
           transactions := [], timestamp := 0, nonce := 0, hash := "cafe" }] =
      Blockchain.isValid
        [{ index := 0, previousHash := "0", merkleRoot := "bb",
           transactions := [txA], timestamp := 7, nonce := 3,
           hash := "cafe" }] :=
  isValid_ignores_genesis_fields _ _ [] rfl

/-- C4: a successful proof-of-work run starting at nonce 0 stores the digest
recomputed at the stored nonce over the serialized fields, that digest's
first `d` hex characters are all `'0'`, and the stored nonce is the least
qualifying one (every smaller nonce fails the difficulty test). -/
theorem mineBlock_first_qualifying_nonce (d fuel : Nat) (b b' : Block)
    (h0 : b.nonce = 0) (h : b.mineBlock d fuel = some b') :
    b'.hash = b.computeHash b'.nonce "" ∧
    meetsDifficulty d b'.hash = true ∧
    ∀ m, m < b'.nonce → meetsDifficulty d (b.computeHash m "") = false := by
  obtain ⟨f1, f2, f3, f4, f5, f6, f7, f8, f9⟩ :=
    mineBlockAux_spec d b fuel b.nonce b' h
  exact ⟨f6, f7, fun m hm => f9 m (by omega) hm⟩

/-- Witness for C4: a concrete difficulty-2 mining run (least qualifying
nonce 27). -/
theorem mineBlock_first_qualifying_nonce_witness :
    minedC4.hash = (Block.make 0 "0" [] 0).computeHash minedC4.nonce "" ∧
    meetsDifficulty 2 minedC4.hash = true ∧
    ∀ m, m < minedC4.nonce →
      meetsDifficulty 2 ((Block.make 0 "0" [] 0).computeHash m "") = false :=
  mineBlock_first_qualifying_nonce 2 40 (Block.make 0 "0" [] 0) minedC4
    rfl rfl

/-- C6: every chain reached from the PoW constructor by a sequence of
`addBlock` calls links each block to its predecessor's stored digest, stores
each non-genesis digest as its own no-validator recomputation, and
validates. -/
theorem pow_build_chains_valid (difficulty fuel ts : Nat)
    (batches : List (List Transaction × Nat)) (c : List Block)
    (h : PoWBlockchain.build difficulty fuel ts batches = some c) :
    (∀ i (hi : i + 1 < c.length),
        (c.get ⟨i + 1, hi⟩).previousHash = (c.get ⟨i, by omega⟩).hash ∧
        (c.get ⟨i + 1, hi⟩).hash =
          (c.get ⟨i + 1, hi⟩).computeHash (c.get ⟨i + 1, hi⟩).nonce "") ∧
    Blockchain.isValid c = true := by
  obtain ⟨hne, hv, hall⟩ := pow_build_inv difficulty fuel ts batches c h
  refine ⟨?_, hv⟩
  intro i hi
  exact ⟨isValid_link c hv i hi, (hall _ (c.get_mem _ _)).1⟩

/-- Witness for C6: a concrete difficulty-1 chain (genesis plus one mined
batch) builds and validates. -/
theorem pow_build_chains_valid_witness :
    (PoWBlockchain.build 1 50 0 [([txA], 1)]).isSome = true ∧
    Blockchain.isValid ((PoWBlockchain.build 1 50 0 [([txA], 1)]).getD []) =
      true :=
  ⟨rfl,
    (pow_build_chains_valid 1 50 0 [([txA], 1)]
      ((PoWBlockchain.build 1 50 0 [([txA], 1)]).getD []) rfl).2⟩

/-- C1 (failing run): a freshly appended PoS block does not validate — the
chain builds, the tip's stored digest is the validator-tagged recomputation,
but `isValid` recomputes without the validator (the marker search over the
hex digest never fires), so validation returns false. -/
theorem pos_fresh_block_validation_fails :
    (PoSBlockchain.build [("Validator1", 100)] 0 0 [([txA], 1, 0)]).map
        Blockchain.isValid = some false ∧
    posTipC1.hash = posTipC1.computeHash posTipC1.nonce "Validator1" ∧
    recomputeHash posTipC1 = posTipC1.computeHash posTipC1.nonce "" ∧
    posTipC1.hash ≠ recomputeHash posTipC1 := by
  exact ⟨by decide, by decide, by decide, by decide⟩

/-- C2 (failing run): `isValid` never reads transactions, so mutating a
transaction amount after append (stored merkleRoot and hash untouched) is
undetected: the honest chain validates and the tampered chain still
validates, although the tampered chain differs from the honest one. -/
theorem tamper_amount_undetected :
    (∀ i j a c, Blockchain.isValid (tamperAmount i j a c) =
        Blockchain.isValid c) ∧
    (PoWBlockchain.build 0 1 0 [([txA], 1)]).map
        (fun c => (Blockchain.isValid c,
          Blockchain.isValid (tamperAmount 1 0 99 c),
          tamperAmount 1 0 99 c == c)) = some (true, true, false) :=
  ⟨isValid_tamperAmount, by decide⟩

/-- C3 (failing run): selection with zero total stake does not fail — it
returns the last validator through the fallback and the constructor still
produces a genesis block; with an empty validator set the fallback calls
`back()` on an empty vector (undefined behaviour, modelled as `none`). No
`InvalidConfiguration` error path exists in the program. -/
theorem selectValidator_no_invalid_configuration :
    PoSBlockchain.selectValidator [("V1", 0)] 5 = some "V1" ∧
    (PoSBlockchain.create [("V1", 0)] 5 0).map List.length = some 1 ∧
    PoSBlockchain.selectValidator ([] : List (String × Nat)) 5 = none :=
  ⟨rfl, by decide, rfl⟩
